import Mathlib

/-!
Verification of the scheduling core of the Kids Weekly Planner
(`KidsWeeklyPlanner.tsx`).

The embedding works at the level of character lists (`List Char`), which is
what the JS string operations of the source manipulate.  Browser primitives
(`AsyncStorage`, `JSON.parse`, `crypto.randomUUID`) are passed in as explicit
parameters.  Numbers produced by `Number(...)` are modelled over `ℚ` (the
source only ever produces integers and halves); `NaN` propagation on malformed
time strings is not modelled — the claims about times all restrict attention
to well-formed `HH:MM` strings.
-/

/-- The double-quote character, written via its code point. -/
def dq : Char := Char.ofNat 34

/-- Prepend a character to the first chunk of a chunk list (helper for the
splitting functions below). -/
def consHead (c : Char) : List (List Char) → List (List Char)
  | [] => [[c]]
  | l :: ls => (c :: l) :: ls

/-- JS `String.prototype.split(sep)` for a one-character separator. -/
def splitOnChar (sep : Char) : List Char → List (List Char)
  | [] => [[]]
  | c :: rest =>
    if c == sep then [] :: splitOnChar sep rest
    else consHead c (splitOnChar sep rest)

/-- Drop one trailing carriage return, if present. -/
def dropTrailingCR (l : List Char) : List Char :=
  if l.getLast? == some '\r' then l.dropLast else l

/-- Apply `f` to every chunk except the last one. -/
def mapButLast (f : List Char → List Char) : List (List Char) → List (List Char)
  | [] => []
  | [l] => [l]
  | l :: l2 :: ls => f l :: mapButLast f (l2 :: ls)

/-- JS `text.split(/\r?\n/)`: every newline separates, and one carriage
return immediately before a newline is consumed with it (equivalently: split
on `\n`, then strip one trailing `\r` from every line except the last); a
lone carriage return is ordinary text. -/
def splitRN (cs : List Char) : List (List Char) :=
  mapButLast dropTrailingCR (splitOnChar '\n' cs)

/-- One step of the JS regex scan `line.match(/"([^"]*)"|[^,]+/g)`: at each
position the quoted-field alternative is tried first (it needs a closing
quote), then the unquoted run `[^,]+`; a position that matches neither (a
comma) is skipped.  Tokens keep the matched text verbatim, quotes included.
The fuel counter only bounds the recursion depth (one unit per scanned
position suffices); `csvTokens` instantiates it with the line length. -/
def csvTokensF : ℕ → List Char → List (List Char)
  | _, [] => []
  | 0, _ :: _ => []
  | fuel + 1, c :: rest =>
    if c == dq && rest.contains dq then
      (dq :: (rest.takeWhile (· != dq) ++ [dq])) ::
        csvTokensF fuel ((rest.dropWhile (· != dq)).drop 1)
    else if c == ',' then csvTokensF fuel rest
    else (c :: rest.takeWhile (· != ',')) :: csvTokensF fuel (rest.dropWhile (· != ','))

/-- The token list the regex global match produces on a CSV line. -/
def csvTokens (cs : List Char) : List (List Char) := csvTokensF cs.length cs

/-- JS `String.prototype.trim` (the source only ever meets ASCII whitespace). -/
def trimWS (cs : List Char) : List Char :=
  ((cs.dropWhile Char.isWhitespace).reverse.dropWhile Char.isWhitespace).reverse

def jsTrim (s : String) : String := String.mk (trimWS s.data)

/-- JS `Number(str)` on the strings the planner feeds it: a nonempty all-digit
string denotes its decimal value, and `Number('')` is `0`.  Other inputs give
`NaN` in JS, which is not modelled (mapped to `0`); every claim about times
restricts itself to well-formed `HH:MM` input, where the model is exact. -/
def jsNum (cs : List Char) : ℚ :=
  if cs ≠ [] ∧ cs.all Char.isDigit then
    ((cs.foldl (fun n c => 10 * n + (c.toNat - 48)) 0 : ℕ) : ℚ)
  else 0

/-- `timeToRow` from the source:
`const [h, m] = time.split(':').map(Number); return (h - 7) + (m >= 30 ? 0.5 : 0)`. -/
def timeToRow (time : String) : ℚ :=
  let parts := splitOnChar ':' time.data
  let h := jsNum (parts.getD 0 [])
  let m := jsNum (parts.getD 1 [])
  (h - 7) + (if 30 ≤ m then (1 / 2 : ℚ) else 0)

/-- `EventItem` from the source.  At runtime `day` is a plain string (the TS
type is a union of string literals, and CSV import can store any string
there), so it is modelled as `String`.  The TS field `end` is a Lean keyword
and is written `«end»`. -/
structure EventItem where
  id : String
  title : String
  day : String
  start : String
  «end» : String
  category : String
  color : String
  notes : Option String
deriving DecidableEq

def DAYS : List String :=
  ["Monday", "Tuesday", "Wednesday", "Thursday", "Friday", "Saturday", "Sunday"]

/-- JS `DAYS.indexOf(d)` (`-1` when absent). -/
def dayIndex (d : String) : Int :=
  match DAYS.findIdx? (· == d) with
  | some i => (i : Int)
  | none => -1

/-- `overlaps` from the source. -/
def overlaps (a b : EventItem) : Bool :=
  if a.day != b.day then false
  else
    let sa := timeToRow a.start
    let ea := timeToRow a.«end»
    let sb := timeToRow b.start
    let eb := timeToRow b.«end»
    decide (max sa sb < min ea eb)

/-- The comparator of `sortedEvents`, verbatim from the source.  Note the
secondary key: the source computes `timeToRow(a.start) - timeToRow(a.start)`
(the left event's start minus itself), which is always `0`. -/
def cmpEvents (a b : EventItem) : ℚ :=
  if a.day != b.day then ((dayIndex a.day : ℚ) - (dayIndex b.day : ℚ))
  else timeToRow a.start - timeToRow a.start

/-- Stable insertion: the new element goes behind every earlier element that
does not compare strictly greater. -/
def insertSorted (cmp : EventItem → EventItem → ℚ) (x : EventItem) :
    List EventItem → List EventItem
  | [] => [x]
  | y :: ys => if cmp y x ≤ 0 then y :: insertSorted cmp x ys else x :: y :: ys

/-- Model of the (specified-stable, ES2019) JS `Array.prototype.sort` with a
consistent comparator: stable insertion sort. -/
def stableSort (cmp : EventItem → EventItem → ℚ) (l : List EventItem) : List EventItem :=
  l.foldl (fun acc x => insertSorted cmp x acc) []

/-- `sortedEvents` from the source (`[...events].sort(...)`). -/
def sortedEvents (events : List EventItem) : List EventItem :=
  stableSort cmpEvents events

/-- JS `a < b` on strings: lexicographic comparison of the character
sequences (what `String.lt` denotes), in its directly-computable form. -/
def jsStrLt (a b : String) : Prop := a.data < b.data

instance (a b : String) : Decidable (jsStrLt a b) := by
  unfold jsStrLt
  infer_instance

/-- The user-visible outcome of a save attempt. -/
inductive SaveOutcome
  | missingTitle
  | invalidRange
  | saved (warned : Bool)
deriving DecidableEq

/-- `saveEvent` from the source: reject on blank trimmed title, reject on
`start >= end` (string comparison), otherwise commit — replacing the stored
event with the candidate's id when one exists, appending otherwise — with a
non-blocking overlap warning flag. -/
def saveEvent (events : List EventItem) (editing : EventItem) :
    SaveOutcome × List EventItem :=
  if jsTrim editing.title == "" then (.missingTitle, events)
  else if ¬ jsStrLt editing.start editing.«end» then (.invalidRange, events)
  else
    let warned := events.any fun e => e.id != editing.id && overlaps e editing
    let next :=
      if events.any fun e => e.id == editing.id then
        events.map fun e => if e.id == editing.id then editing else e
      else events ++ [editing]
    (.saved warned, next)

/-- `deleteEvent` from the source. -/
def deleteEvent (events : List EventItem) (id : String) : List EventItem :=
  events.filter fun e => e.id != id

def CSV_HEADER : List String :=
  ["title", "day", "start", "end", "category", "color", "notes"]

/-- Dynamic field access `(e as any)[h] ?? ''` for the export header names. -/
def fieldOf (e : EventItem) (h : String) : String :=
  if h == "title" then e.title
  else if h == "day" then e.day
  else if h == "start" then e.start
  else if h == "end" then e.«end»
  else if h == "category" then e.category
  else if h == "color" then e.color
  else if h == "notes" then e.notes.getD ""
  else ""

/-- JS `Array.prototype.join(sep)`. -/
def joinWith (sep : List Char) : List (List Char) → List Char
  | [] => []
  | [x] => x
  | x :: y :: xs => x ++ sep ++ joinWith sep (y :: xs)

/-- JS `String(v).replaceAll('"', '""')`. -/
def dquote : List Char → List Char
  | [] => []
  | c :: rest => if c == dq then dq :: dq :: dquote rest else c :: dquote rest

/-- One exported CSV cell: `"${...}"` with internal quotes doubled. -/
def quoteField (s : String) : List Char := dq :: (dquote s.data ++ [dq])

/-- One exported CSV data row. -/
def rowLine (e : EventItem) : List Char :=
  joinWith [','] (CSV_HEADER.map fun h => quoteField (fieldOf e h))

/-- The exported CSV header row, `header.join(',')`. -/
def headerLine : List Char := joinWith [','] (CSV_HEADER.map String.data)

/-- The column list the import derives from the exported header. -/
def hdrCols : List (List Char) := CSV_HEADER.map String.data

/-- `exportCSV` from the source (the emitted text; the download plumbing is
platform UI). -/
def exportCSV (events : List EventItem) : String :=
  String.mk (joinWith ['\n'] (headerLine :: events.map rowLine))

/-- The import loop `cols.forEach((c, i) => (obj[c] = items[i] ?? ''))`: the
value a field name receives.  The last assignment wins when a column name
repeats; a name that never occurs leaves the field unassigned, modelled as the
empty string. -/
def colVal (cols : List (List Char)) (items : List (List Char)) (name : String) : String :=
  match ((cols.enum).filter fun p => p.2 == name.data).getLast? with
  | some p => String.mk (items.getD p.1 [])
  | none => ""

/-- One imported row: strip every quote from each regex token, then fill the
record by header name; the record's `id` is freshly generated
(`crypto.randomUUID()`), supplied here as `fresh`. -/
def parseRow (cols : List (List Char)) (line : List Char) (fresh : String) : EventItem :=
  let items := (csvTokens line).map (List.filter (· != dq))
  { id := fresh
    title := colVal cols items "title"
    day := colVal cols items "day"
    start := colVal cols items "start"
    «end» := colVal cols items "end"
    category := colVal cols items "category"
    color := colVal cols items "color"
    notes := if cols.contains "notes".data then some (colVal cols items "notes") else none }

/-- The data rows in order; row `k` draws its fresh id from `supply k`. -/
def parseRows (supply : ℕ → String) (cols : List (List Char)) :
    ℕ → List (List Char) → List EventItem
  | _, [] => []
  | k, line :: rest => parseRow cols line (supply k) :: parseRows supply cols (k + 1) rest

/-- `importCSVWeb` from the source.  `none` models the `catch` branch (the
only reachable throw is destructuring the header off an empty line list);
`some out` is the parsed collection handed to `setEvents(out)`. -/
def importCSVWeb (supply : ℕ → String) (text : String) : Option (List EventItem) :=
  let lines := (splitRN text.data).filter fun l => !l.isEmpty
  match lines with
  | [] => none
  | h :: rest =>
    let cols := (splitOnChar ',' h).map fun cl => trimWS (cl.filter (· != dq))
    some (parseRows supply cols 0 rest)

/-- The Event Store transition performed by an import: wholesale replacement
on success, unchanged store on parse failure. -/
def importEvents (supply : ℕ → String) (prior : List EventItem) (text : String) :
    List EventItem :=
  match importCSVWeb supply text with
  | some out => out
  | none => prior

/-- `getLS` from the source.  `AsyncStorage` is modelled as the partial map
`store`; `JSON.parse` as the abstract `parse`, with `none` standing for a
parse exception; the `raw ?` truthiness test makes an empty stored string fall
back as well (and `JSON.parse('')` throws, so the two models agree there). -/
def getLS {T : Type} (parse : String → Option T) (store : String → Option String)
    (key : String) (fallback : T) : T :=
  match store key with
  | none => fallback
  | some raw => if raw == "" then fallback else (parse raw).getD fallback

/-- `const rowHeight = 48`. -/
def rowHeight : ℚ := 48

/-- `denseHours ? 2 : 1`. -/
def densityFactor (denseHours : Bool) : ℚ := if denseHours then 2 else 1

/-- The rendered vertical offset of an event block:
`(timeToRow(e.start)) * rowHeight * (denseHours ? 2 : 1)`. -/
def eventTop (e : EventItem) (denseHours : Bool) : ℚ :=
  timeToRow e.start * rowHeight * densityFactor denseHours

/-- The rendered height of an event block:
`(timeToRow(e.end) - timeToRow(e.start)) * rowHeight * (denseHours ? 2 : 1)`. -/
def eventHeight (e : EventItem) (denseHours : Bool) : ℚ :=
  (timeToRow e.«end» - timeToRow e.start) * rowHeight * densityFactor denseHours

/-- The seven CSV-visible fields of an event, in export column order (`id`
excluded; an absent `notes` reads as the empty string, as in the export). -/
def eventFields (e : EventItem) : List String :=
  [e.title, e.day, e.start, e.«end», e.category, e.color, e.notes.getD ""]

/-- A well-formed `HH:MM` string: two digits, a colon, two digits. -/
def isHHMM (s : String) : Bool :=
  match s.data with
  | [h1, h2, c, m1, m2] => h1.isDigit && h2.isDigit && (c == ':') && m1.isDigit && m2.isDigit
  | _ => false

/-- A field value that survives the CSV codec unchanged: free of double
quotes and newlines.  A lone carriage return is harmless: every exported cell
is quote-wrapped, so a carriage return inside a field never sits directly
before the newline that joins the rows, and `split(/\r?\n/)` consumes a
carriage return only in that position. -/
def cleanField (s : String) : Bool :=
  s.data.all fun c => c != dq && c != '\n'

/-- All seven CSV-visible fields of the event are clean. -/
def cleanEvent (e : EventItem) : Bool :=
  (eventFields e).all cleanField

-- Sample data used by the concrete counterexamples and witnesses below.

def evWed10 : EventItem :=
  ⟨"e1", "Art", "Wednesday", "10:00", "11:00", "School", "#2563eb", some ""⟩
def evMon9 : EventItem :=
  ⟨"e2", "Math", "Monday", "09:00", "10:00", "School", "#2563eb", some ""⟩
def evMon8 : EventItem :=
  ⟨"e3", "Run", "Monday", "08:00", "09:00", "Sport", "#22c55e", some ""⟩

/-- An event whose title contains a double quote: `a"b`. -/
def evQ : EventItem :=
  ⟨"e4", String.mk ['a', dq, 'b'], "Monday", "09:00", "10:00", "School", "#2563eb", some ""⟩

/-- An event whose title contains a lone carriage return. -/
def evCR : EventItem :=
  ⟨"e10", String.mk ['a', '\r', 'b'], "Tuesday", "11:00", "12:00", "Club", "#06b6d4", some ""⟩

/-- A Tuesday event, time range identical to `evMon9`. -/
def evTue9 : EventItem :=
  ⟨"e5", "Chess", "Tuesday", "09:00", "10:00", "Club", "#8b5cf6", some ""⟩

/-- A Monday event overlapping `evMon9` (09:30 to 10:30). -/
def evMon930 : EventItem :=
  ⟨"e6", "Piano", "Monday", "09:30", "10:30", "Music", "#f59e0b", some ""⟩

/-- The event of the spec's geometry example: 09:00 to 10:30. -/
def evGeom : EventItem :=
  ⟨"e7", "Reading", "Monday", "09:00", "10:30", "Rest", "#14b8a6", some ""⟩

/-- A candidate with an inverted time range. -/
def evBadRange : EventItem :=
  ⟨"e8", "Late", "Monday", "10:00", "09:00", "School", "#2563eb", some ""⟩

/-- A candidate whose title is all whitespace. -/
def evBlank : EventItem :=
  ⟨"e9", "   ", "Monday", "09:00", "10:00", "School", "#2563eb", some ""⟩

/-- An edited copy of `evWed10`: same id, new title. -/
def evWed10v2 : EventItem :=
  ⟨"e1", "Painting", "Wednesday", "10:00", "11:00", "Art", "#ef4444", some "bring brushes"⟩

/-- Five unrelated pre-import events. -/
def prior5 : List EventItem :=
  [⟨"p1", "A", "Monday", "09:00", "10:00", "", "#2563eb", none⟩,
   ⟨"p2", "B", "Tuesday", "09:00", "10:00", "", "#2563eb", none⟩,
   ⟨"p3", "C", "Wednesday", "09:00", "10:00", "", "#2563eb", none⟩,
   ⟨"p4", "D", "Thursday", "09:00", "10:00", "", "#2563eb", none⟩,
   ⟨"p5", "E", "Friday", "09:00", "10:00", "", "#2563eb", none⟩]

/-- An id supply that always returns the same fresh id. -/
def supplyF : ℕ → String := fun _ => "fresh"

/-- An injective id supply: row `k` receives a string of `k` letters `z`. -/
def supplyZ : ℕ → String := fun k => String.mk (List.replicate k 'z')

/-- A two-row CSV text: the export of `[evMon9, evWed10]`. -/
def textW2 : String := exportCSV [evMon9, evWed10]

/-- The parse of `textW2` under `supplyF`. -/
def outW4 : List EventItem :=
  [⟨"fresh", "Math", "Monday", "09:00", "10:00", "School", "#2563eb", some ""⟩,
   ⟨"fresh", "Art", "Wednesday", "10:00", "11:00", "School", "#2563eb", some ""⟩]

/-- The parse of `textW2` under `supplyZ`. -/
def outW9 : List EventItem :=
  [⟨"", "Math", "Monday", "09:00", "10:00", "School", "#2563eb", some ""⟩,
   ⟨"z", "Art", "Wednesday", "10:00", "11:00", "School", "#2563eb", some ""⟩]

/-- A concrete `JSON.parse` model for the persistence witness. -/
def parse0 : String → Option ℕ := fun s => if s = "[42]" then some 42 else none

/-- A concrete stored-state model: one well-formed key, everything else absent. -/
def store0 : String → Option String := fun k =>
  if k = "kwp:events" then some "[42]"
  else if k = "kwp:dense" then some "not json"
  else none

/-!  Theorems. -/

/-- C1: the sorted view does NOT order same-day events by start-time row.  The
source comparator's secondary key is `timeToRow(a.start) - timeToRow(a.start)`
(always `0`), so same-day events keep insertion order: on the spec's own
example input `[(Wed,10:00), (Mon,09:00), (Mon,08:00)]` the code produces
`[(Mon,09:00), (Mon,08:00), (Wed,10:00)]`, not the specified
`[(Mon,08:00), (Mon,09:00), (Wed,10:00)]`. -/
theorem sortedEvents_secondary_key_noop :
    sortedEvents [evWed10, evMon9, evMon8] = [evMon9, evMon8, evWed10] ∧
    sortedEvents [evWed10, evMon9, evMon8] ≠ [evMon8, evMon9, evWed10] := by
  with_unfolding_all decide

/-- C6: `overlaps` is symmetric: the day test compares the two days for
inequality and the time test compares `max` of starts against `min` of ends,
both symmetric in the two events. -/
theorem overlaps_symmetric (a b : EventItem) : overlaps a b = overlaps b a := by
  unfold overlaps
  by_cases h : a.day = b.day
  · simp only [h, bne_self_eq_false, Bool.false_eq_true, if_false]
    rw [max_comm, min_comm]
  · have h' : b.day ≠ a.day := fun he => h he.symm
    simp [bne_iff_ne, h, h']

/-- C5: for events with well-formed `HH:MM` times, `overlaps` is `false`
whenever the days differ, and on equal days it holds exactly when
`max(timeToRow start, timeToRow start') < min(timeToRow end, timeToRow end')`,
i.e. when the half-open row intervals strictly intersect. -/
theorem overlaps_day_scoped (a b : EventItem)
    (ha : isHHMM a.start = true) (hb : isHHMM a.«end» = true)
    (hc : isHHMM b.start = true) (hd : isHHMM b.«end» = true) :
    (a.day ≠ b.day → overlaps a b = false) ∧
    (a.day = b.day →
      (overlaps a b = true ↔
        max (timeToRow a.start) (timeToRow b.start) <
          min (timeToRow a.«end») (timeToRow b.«end»))) := by
  constructor
  · intro h
    simp [overlaps, bne_iff_ne, h]
  · intro h
    simp [overlaps, h]

/-- C5 witness: a Monday/Tuesday pair never overlaps; the overlapping Monday
pair 09:00-10:00 and 09:30-10:30 does. -/
theorem overlaps_day_scoped_witness :
    overlaps evMon9 evTue9 = false ∧ overlaps evMon9 evMon930 = true := by
  constructor
  · exact (overlaps_day_scoped evMon9 evTue9 (by decide) (by decide) (by decide)
      (by decide)).1 (by decide)
  · exact ((overlaps_day_scoped evMon9 evMon930 (by decide) (by decide) (by decide)
      (by decide)).2 rfl).mpr (by with_unfolding_all decide)

/-- C7: for any event with well-formed times and either grid density, the
rendered vertical offset is `timeToRow(start) * rowHeight * density` and the
rendered height is `(timeToRow(end) - timeToRow(start)) * rowHeight * density`
(`rowHeight = 48`, density `1` hourly / `2` half-hourly); in particular the
09:00-10:30 event on the 07:00-start grid renders at offset 96 with height 72
in hourly mode. -/
theorem eventGeometry_spec :
    (∀ (e : EventItem) (denseHours : Bool),
      isHHMM e.start = true → isHHMM e.«end» = true →
      eventTop e denseHours = timeToRow e.start * rowHeight * densityFactor denseHours ∧
      eventHeight e denseHours =
        (timeToRow e.«end» - timeToRow e.start) * rowHeight * densityFactor denseHours) ∧
    rowHeight = 48 ∧ densityFactor false = 1 ∧ densityFactor true = 2 ∧
    eventTop evGeom false = 96 ∧ eventHeight evGeom false = 72 := by
  refine ⟨fun e d _ _ => ⟨rfl, rfl⟩, rfl, rfl, rfl, ?_, ?_⟩ <;> with_unfolding_all decide

/-- C7 witness: the geometry equations applied to the concrete 09:00-10:30
event in hourly mode. -/
theorem eventGeometry_spec_witness :
    eventTop evGeom false = timeToRow evGeom.start * rowHeight * densityFactor false ∧
    eventHeight evGeom false =
      (timeToRow evGeom.«end» - timeToRow evGeom.start) * rowHeight * densityFactor false := by
  exact eventGeometry_spec.1 evGeom false (by decide) (by decide)

/-- C8: the startup loader returns the parsed stored value when the entry is
present and parses, and the supplied default — without any failure escaping —
when the entry is absent or its JSON is corrupt (`parse` returning `none`
models the `JSON.parse` exception; `JSON.parse ''` throws, hence the
hypothesis on `parse ""`). -/
theorem getLS_fallback_spec {T : Type} (parse : String → Option T)
    (store : String → Option String) (key : String) (fallback : T)
    (hparse : parse "" = none) :
    (store key = none → getLS parse store key fallback = fallback) ∧
    (∀ raw, store key = some raw → parse raw = none →
      getLS parse store key fallback = fallback) ∧
    (∀ raw v, store key = some raw → parse raw = some v →
      getLS parse store key fallback = v) := by
  refine ⟨fun h => by simp [getLS, h], fun raw h hp => ?_, fun raw v h hp => ?_⟩
  · rw [getLS, h]
    by_cases he : raw = ""
    · simp [he]
    · simp [he, hp]
  · have hne : raw ≠ "" := by
      intro he
      rw [he, hparse] at hp
      cases hp
    rw [getLS, h]
    simp [hne, hp]

/-- C8 witness: a key with well-formed stored JSON loads the parsed value; a
key with corrupt stored text and an absent key load their defaults. -/
theorem getLS_fallback_spec_witness :
    getLS parse0 store0 "kwp:events" 0 = 42 ∧
    getLS parse0 store0 "kwp:dense" 5 = 5 ∧
    getLS parse0 store0 "kwp:title" 7 = 7 := by
  refine ⟨?_, ?_, ?_⟩
  · exact (getLS_fallback_spec parse0 store0 "kwp:events" 0 rfl).2.2 "[42]" 42 rfl rfl
  · exact (getLS_fallback_spec parse0 store0 "kwp:dense" 5 rfl).2.1 "not json" rfl rfl
  · exact (getLS_fallback_spec parse0 store0 "kwp:title" 7 rfl).1 rfl

/-- C3: `saveEvent` commits the candidate — replacing the stored event with
its id if present, appending otherwise — exactly when the trimmed title is
nonempty and `start < end` (string comparison); on a failed check the outcome
is a blocking error and the store is returned unchanged; a same-day overlap
with a different-id event only sets the warning flag of a successful save and
never blocks the commit. -/
theorem saveEvent_validation_gate (events : List EventItem) (c : EventItem) :
    (jsTrim c.title ≠ "" ∧ jsStrLt c.start c.«end» →
      (saveEvent events c).1 =
        .saved (events.any fun e => e.id != c.id && overlaps e c) ∧
      (saveEvent events c).2 =
        (if events.any fun e => e.id == c.id then
          events.map fun e => if e.id == c.id then c else e
        else events ++ [c])) ∧
    (¬ (jsTrim c.title ≠ "" ∧ jsStrLt c.start c.«end») →
      (saveEvent events c).2 = events ∧
      ∀ w, (saveEvent events c).1 ≠ .saved w) := by
  constructor
  · rintro ⟨ht, hr⟩
    unfold saveEvent
    split_ifs with h1 h2 h3 <;>
      first
        | exact absurd (by simpa [beq_iff_eq] using h1) ht
        | exact absurd hr h2
        | exact ⟨rfl, rfl⟩
  · intro hn
    rw [saveEvent]
    by_cases ht : jsTrim c.title = ""
    · simp [ht]
    · have hr : ¬ jsStrLt c.start c.«end» := by
        by_contra hlt
        exact hn ⟨ht, hlt⟩
      simp [ht, hr]

/-- C3 witness: a valid candidate commits (here: appended to the empty store);
an inverted range and a blank title each abort with the store untouched. -/
theorem saveEvent_validation_gate_witness :
    (saveEvent [] evMon9).2 = [evMon9] ∧
    (saveEvent [evMon9] evBadRange).2 = [evMon9] ∧
    (saveEvent [evMon9] evBlank).2 = [evMon9] := by
  refine ⟨?_, ?_, ?_⟩
  · have h := (saveEvent_validation_gate [] evMon9).1 ⟨by decide, by decide⟩
    rw [h.2]
    decide
  · exact ((saveEvent_validation_gate [evMon9] evBadRange).2 (by decide)).1
  · exact ((saveEvent_validation_gate [evMon9] evBlank).2 (by decide)).1

/-- The committed store of a validation-passing save (shared helper). -/
theorem saveEvent_commit (events : List EventItem) (c : EventItem)
    (ht : jsTrim c.title ≠ "") (hr : jsStrLt c.start c.«end») :
    (saveEvent events c).2 =
      (if events.any fun e => e.id == c.id then
        events.map fun e => if e.id == c.id then c else e
      else events ++ [c]) := by
  unfold saveEvent
  split_ifs with h1 h2 <;>
    first
      | exact absurd (by simpa [beq_iff_eq] using h1) ht
      | exact absurd hr h2
      | rfl

/-- C10: when a valid candidate's id is already stored, the save replaces in
place: the length is unchanged, and position by position every event with a
different id is exactly as before while each position holding the candidate's
id now holds the candidate. -/
theorem saveEvent_replace_frame (events : List EventItem) (c : EventItem)
    (ht : jsTrim c.title ≠ "") (hr : jsStrLt c.start c.«end»)
    (hex : (events.any fun e => e.id == c.id) = true) :
    ((saveEvent events c).2).length = events.length ∧
    ∀ (i : ℕ) (e : EventItem), events[i]? = some e →
      (e.id ≠ c.id → (saveEvent events c).2[i]? = some e) ∧
      (e.id = c.id → (saveEvent events c).2[i]? = some c) := by
  have h2 : (saveEvent events c).2 = events.map fun e => if e.id == c.id then c else e := by
    rw [saveEvent_commit events c ht hr, if_pos hex]
  rw [h2]
  refine ⟨by simp, fun i e hi => ⟨fun hne => ?_, fun heq => ?_⟩⟩
  · rw [List.getElem?_map, hi]
    simp [beq_iff_eq, hne]
  · rw [List.getElem?_map, hi]
    simp [beq_iff_eq, heq]

/-- C10 witness: editing `evWed10` (id `e1`) inside `[evMon9, evWed10]`
replaces position 1 in place and leaves position 0 untouched. -/
theorem saveEvent_replace_frame_witness :
    ((saveEvent [evMon9, evWed10] evWed10v2).2).length = 2 ∧
    (saveEvent [evMon9, evWed10] evWed10v2).2[0]? = some evMon9 ∧
    (saveEvent [evMon9, evWed10] evWed10v2).2[1]? = some evWed10v2 := by
  have h := saveEvent_replace_frame [evMon9, evWed10] evWed10v2
    (by decide) (by decide) (by decide)
  exact ⟨h.1, (h.2 0 evMon9 rfl).1 (by decide), (h.2 1 evWed10 rfl).2 rfl⟩

/-- Replacing by id never changes the stored id list (shared helper). -/
theorem map_id_replace (events : List EventItem) (c : EventItem) :
    ((events.map fun e => if e.id == c.id then c else e).map EventItem.id) =
      events.map EventItem.id := by
  rw [List.map_map]
  refine List.map_congr_left fun e _ => ?_
  simp only [Function.comp_apply]
  by_cases h : e.id = c.id
  · simp [h]
  · simp [h]

/-- The ids handed out by `parseRows` are exactly the supply values of the
row indices (shared helper). -/
theorem parseRows_ids (supply : ℕ → String) (cols : List (List Char)) :
    ∀ (rows : List (List Char)) (k : ℕ),
      (parseRows supply cols k rows).map EventItem.id =
        (List.range' k rows.length).map supply
  | [], k => by simp [parseRows]
  | line :: rest, k => by
    rw [parseRows, List.length_cons, List.range'_succ]
    simp only [List.map_cons]
    rw [parseRows_ids supply cols rest (k + 1)]
    rfl

/-- `parseRows` makes one event per data row (shared helper). -/
theorem parseRows_length (supply : ℕ → String) (cols : List (List Char)) :
    ∀ (rows : List (List Char)) (k : ℕ),
      (parseRows supply cols k rows).length = rows.length
  | [], _ => rfl
  | _ :: rest, k => by
    rw [parseRows, List.length_cons, List.length_cons,
      parseRows_length supply cols rest (k + 1)]

/-- C9: id uniqueness is preserved by every mutation.  `saveEvent` either
keeps the id list unchanged (reject or in-place replace) or appends an id its
guard just verified absent; `deleteEvent` only removes entries; a CSV import
replaces the store with rows carrying supplied fresh ids, distinct whenever
the generator never repeats. -/
theorem id_uniqueness_invariant :
    (∀ (events : List EventItem) (c : EventItem),
      ((events.map EventItem.id).Nodup) →
      (((saveEvent events c).2).map EventItem.id).Nodup) ∧
    (∀ (events : List EventItem) (i : String),
      ((events.map EventItem.id).Nodup) →
      ((deleteEvent events i).map EventItem.id).Nodup) ∧
    (∀ (supply : ℕ → String) (text : String) (out : List EventItem),
      (∀ j k : ℕ, j ≠ k → supply j ≠ supply k) →
      importCSVWeb supply text = some out →
      (out.map EventItem.id).Nodup) := by
  refine ⟨fun events c hnd => ?_, fun events i hnd => ?_,
    fun supply text out hinj h => ?_⟩
  · by_cases h1 : jsTrim c.title = ""
    · have he : (saveEvent events c).2 = events := by
        unfold saveEvent
        rw [if_pos (by simpa [beq_iff_eq] using h1)]
      rw [he]
      exact hnd
    · by_cases h2 : jsStrLt c.start c.«end»
      · rw [saveEvent_commit events c h1 h2]
        split_ifs with h3
        · rw [map_id_replace]
          exact hnd
        · rw [List.map_append, List.nodup_append]
          refine ⟨hnd, by simp, ?_⟩
          intro a ha hb
          rcases List.mem_map.mp ha with ⟨e, he, heq⟩
          have hb' : a = c.id := by simpa using hb
          exact h3 (List.any_eq_true.mpr ⟨e, he, by simp [heq, hb']⟩)
      · have he : (saveEvent events c).2 = events := by
          unfold saveEvent
          rw [if_neg (by simpa [beq_iff_eq] using h1), if_pos h2]
        rw [he]
        exact hnd
  · exact hnd.sublist ((List.filter_sublist events).map EventItem.id)
  · simp only [importCSVWeb] at h
    rcases hl : (splitRN text.data).filter (fun l => !l.isEmpty) with _ | ⟨hd, rest⟩ <;>
      rw [hl] at h
    · cases h
    · injection h with h'
      rw [← h', parseRows_ids]
      exact (List.nodup_range' 0 rest.length).map
        fun j k heq => Classical.byContradiction fun hne => hinj j k hne heq

/-- C9 witness: a valid append keeps ids distinct; a delete keeps ids
distinct; the two-row import under the injective supply yields distinct ids. -/
theorem id_uniqueness_invariant_witness :
    (((saveEvent [evMon9] evWed10).2).map EventItem.id).Nodup ∧
    ((deleteEvent [evMon9, evWed10] "e2").map EventItem.id).Nodup ∧
    ((outW9.map EventItem.id).Nodup) := by
  refine ⟨?_, ?_, ?_⟩
  · exact id_uniqueness_invariant.1 [evMon9] evWed10 (by decide)
  · exact id_uniqueness_invariant.2.1 [evMon9, evWed10] "e2" (by decide)
  · exact id_uniqueness_invariant.2.2 supplyZ textW2 outW9
      (fun j k hjk heq => hjk (by simpa [supplyZ] using congrArg (fun s => s.data.length) heq))
      (by decide)

/-- C4: a successful CSV import wholesale-replaces the Event Store: the new
store is exactly the parsed rows (one event per nonempty data line), every
resulting id comes fresh from the supply, and — when the supply avoids every
pre-existing id — no resulting event shares an id with any event present
before the import. -/
theorem importCSV_replace_semantics (supply : ℕ → String) (prior : List EventItem)
    (text : String) (out : List EventItem)
    (h : importCSVWeb supply text = some out) :
    importEvents supply prior text = out ∧
    out.length + 1 = ((splitRN text.data).filter fun l => !l.isEmpty).length ∧
    out.map EventItem.id = (List.range out.length).map supply ∧
    ((∀ k : ℕ, ∀ p ∈ prior, supply k ≠ p.id) →
      ∀ e ∈ out, ∀ p ∈ prior, e.id ≠ p.id) := by
  have hkey : out.length + 1 = ((splitRN text.data).filter fun l => !l.isEmpty).length ∧
      out.map EventItem.id = (List.range out.length).map supply := by
    simp only [importCSVWeb] at h
    rcases hl : (splitRN text.data).filter (fun l => !l.isEmpty) with _ | ⟨hd, rest⟩ <;>
      rw [hl] at h
    · cases h
    · injection h with h'
      constructor
      · rw [← h', parseRows_length, hl, List.length_cons]
      · rw [← h', parseRows_ids, parseRows_length, List.range_eq_range']
  refine ⟨by simp [importEvents, h], hkey.1, hkey.2, fun hfresh e he p hp heq => ?_⟩
  have hmem : e.id ∈ out.map EventItem.id := List.mem_map.mpr ⟨e, he, rfl⟩
  rw [hkey.2] at hmem
  rcases List.mem_map.mp hmem with ⟨k, _, hk⟩
  exact hfresh k p hp (hk.trans heq)

/-- C4 witness: importing the two-row CSV `textW2` over a five-event store
leaves exactly the two parsed events, with the supplied fresh id. -/
theorem importCSV_replace_semantics_witness :
    importEvents supplyF prior5 textW2 = outW4 ∧
    outW4.length = 2 ∧
    outW4.map EventItem.id = (List.range outW4.length).map supplyF := by
  have h : importCSVWeb supplyF textW2 = some outW4 := by decide
  have hs := importCSV_replace_semantics supplyF prior5 textW2 outW4 h
  exact ⟨hs.1, by decide, hs.2.2.1⟩

/-- Fuel only bounds the recursion depth of the token scan: any two
sufficient fuels agree (shared helper). -/
theorem csvTokensF_congr : ∀ (f1 f2 : ℕ) (cs : List Char),
    cs.length ≤ f1 → cs.length ≤ f2 → csvTokensF f1 cs = csvTokensF f2 cs := by
  intro f1
  induction f1 with
  | zero =>
    intro f2 cs h1 _
    have hnil : cs = [] := List.length_eq_zero.mp (Nat.le_zero.mp h1)
    subst hnil
    cases f2 <;> rfl
  | succ f1 ih =>
    intro f2 cs h1 h2
    cases cs with
    | nil => cases f2 <;> rfl
    | cons c rest =>
      cases f2 with
      | zero => simp at h2
      | succ f2' =>
        have hdw1 := (List.dropWhile_sublist (l := rest) (· != dq)).length_le
        have hdw2 := (List.dropWhile_sublist (l := rest) (· != ',')).length_le
        have hlen1 : rest.length ≤ f1 := by simpa using h1
        have hlen2 : rest.length ≤ f2' := by simpa using h2
        simp only [csvTokensF]
        split_ifs
        · rw [ih f2' _ (by simp only [List.length_drop]; omega)
            (by simp only [List.length_drop]; omega)]
        · rw [ih f2' rest hlen1 hlen2]
        · rw [ih f2' _ (le_trans hdw2 hlen1) (le_trans hdw2 hlen2)]

/-- The one-step unfolding of the token scan (shared helper). -/
theorem csvTokens_cons (c : Char) (rest : List Char) :
    csvTokens (c :: rest) =
      if c == dq && rest.contains dq then
        (dq :: (rest.takeWhile (· != dq) ++ [dq])) ::
          csvTokens ((rest.dropWhile (· != dq)).drop 1)
      else if c == ',' then csvTokens rest
      else (c :: rest.takeWhile (· != ',')) :: csvTokens (rest.dropWhile (· != ',')) := by
  have hdw1 := (List.dropWhile_sublist (l := rest) (· != dq)).length_le
  have hdw2 := (List.dropWhile_sublist (l := rest) (· != ',')).length_le
  show csvTokensF (rest.length + 1) (c :: rest) = _
  simp only [csvTokensF]
  split_ifs
  · rw [show csvTokensF rest.length ((rest.dropWhile (· != dq)).drop 1) =
        csvTokens ((rest.dropWhile (· != dq)).drop 1) from
      csvTokensF_congr _ _ _ (by simp only [List.length_drop]; omega) le_rfl]
  · rfl
  · rw [show csvTokensF rest.length (rest.dropWhile (· != ',')) =
        csvTokens (rest.dropWhile (· != ',')) from
      csvTokensF_congr _ _ _ (le_trans hdw2 le_rfl) le_rfl]

/-- Scanning a clean prefix: `takeWhile` up to the first quote (shared helper). -/
theorem takeWhile_clean_append (v t : List Char) (hv : dq ∉ v) :
    (v ++ dq :: t).takeWhile (· != dq) = v := by
  induction v with
  | nil => simp [List.takeWhile_cons]
  | cons c v' ih =>
    have hc : c ≠ dq := fun h => hv (by simp [h])
    have hv' : dq ∉ v' := fun h => hv (List.mem_cons_of_mem _ h)
    simp [List.takeWhile_cons, bne_iff_ne, hc, ih hv']

/-- Scanning a clean prefix: `dropWhile` reaches the first quote (shared helper). -/
theorem dropWhile_clean_append (v t : List Char) (hv : dq ∉ v) :
    (v ++ dq :: t).dropWhile (· != dq) = dq :: t := by
  induction v with
  | nil => simp [List.dropWhile_cons]
  | cons c v' ih =>
    have hc : c ≠ dq := fun h => hv (by simp [h])
    have hv' : dq ∉ v' := fun h => hv (List.mem_cons_of_mem _ h)
    simp [List.dropWhile_cons, bne_iff_ne, hc, ih hv']

/-- Doubling quotes is the identity on quote-free text (shared helper). -/
theorem dquote_clean (l : List Char) (hl : dq ∉ l) : dquote l = l := by
  induction l with
  | nil => rfl
  | cons c l' ih =>
    have hc : c ≠ dq := fun h => hl (by simp [h])
    have hl' : dq ∉ l' := fun h => hl (List.mem_cons_of_mem _ h)
    simp [dquote, hc, ih hl']

/-- Stripping the quotes of a clean wrapped cell recovers the cell (shared
helper). -/
theorem filter_wrap (v : List Char) (hv : dq ∉ v) :
    (dq :: (v ++ [dq])).filter (· != dq) = v := by
  have hfix : List.filter (· != dq) v = v :=
    List.filter_eq_self.mpr fun c hc => by
      simp only [bne_iff_ne, ne_eq, decide_eq_true_eq]
      exact fun h => hv (h ▸ hc)
  simp [List.filter_cons, List.filter_append, hfix]

/-- A wrapped cell list contains a quote (shared helper). -/
theorem contains_dq_append (v t : List Char) : (v ++ dq :: t).contains dq = true := by
  have : dq ∈ v ++ dq :: t := List.mem_append_right v (List.mem_cons_self dq t)
  simpa [List.elem_iff] using this

/-- The regex scan of a line of quote-wrapped clean cells returns exactly the
wrapped cells (shared helper). -/
theorem csvTokens_wrapped : ∀ (vs : List (List Char)), vs ≠ [] →
    (∀ v ∈ vs, dq ∉ v) →
    csvTokens (joinWith [','] (vs.map fun v => dq :: (v ++ [dq]))) =
      vs.map fun v => dq :: (v ++ [dq])
  | [], h, _ => absurd rfl h
  | [v], _, hc => by
    have hv : dq ∉ v := hc v (by simp)
    show csvTokens (dq :: (v ++ [dq])) = _
    rw [csvTokens_cons]
    rw [if_pos (by simp [contains_dq_append v []])]
    rw [takeWhile_clean_append v [] hv, dropWhile_clean_append v [] hv]
    simp [csvTokens, csvTokensF]
  | v :: w :: vs, _, hc => by
    have hv : dq ∉ v := hc v (by simp)
    have hrest : ∀ x ∈ w :: vs, dq ∉ x := fun x hx => hc x (by simp [hx])
    have hjoin : joinWith [','] ((v :: w :: vs).map fun v => dq :: (v ++ [dq])) =
        dq :: (v ++ dq :: ',' :: joinWith [','] ((w :: vs).map fun v => dq :: (v ++ [dq]))) := by
      show (dq :: (v ++ [dq])) ++ [','] ++ _ = _
      simp [List.append_assoc]
    rw [hjoin, csvTokens_cons]
    rw [if_pos (by simp [contains_dq_append v _])]
    rw [takeWhile_clean_append v _ hv, dropWhile_clean_append v _ hv]
    simp only [List.drop_succ_cons, List.drop_zero]
    rw [csvTokens_cons]
    simp only [show ((',' : Char) == dq) = false from rfl, Bool.false_and,
      Bool.false_eq_true, if_false, if_pos rfl]
    rw [csvTokens_wrapped (w :: vs) (by simp) hrest]
    simp [List.map_cons]

/-- Characters of a doubled-quote rendering come from the text or are quotes
(shared helper). -/
theorem mem_dquote (c : Char) : ∀ (l : List Char), c ∈ dquote l → c = dq ∨ c ∈ l
  | [], h => by simp [dquote] at h
  | a :: l', h => by
    by_cases ha : a = dq
    · rw [dquote, if_pos (by simp [ha])] at h
      rcases List.mem_cons.mp h with h1 | h1
      · exact Or.inl h1
      · rcases List.mem_cons.mp h1 with h2 | h2
        · exact Or.inl h2
        · rcases mem_dquote c l' h2 with h3 | h3
          · exact Or.inl h3
          · exact Or.inr (List.mem_cons_of_mem _ h3)
    · rw [dquote, if_neg (by simp [ha])] at h
      rcases List.mem_cons.mp h with h1 | h1
      · exact Or.inr (h1 ▸ List.mem_cons_self a l')
      · rcases mem_dquote c l' h1 with h3 | h3
        · exact Or.inl h3
        · exact Or.inr (List.mem_cons_of_mem _ h3)

/-- Characters of a joined chunk list come from the chunks or the separator
(shared helper). -/
theorem mem_joinWith (c : Char) (sep : List Char) :
    ∀ (ls : List (List Char)), c ∈ joinWith sep ls → c ∈ sep ∨ ∃ l ∈ ls, c ∈ l
  | [], h => by simp [joinWith] at h
  | [x], h => Or.inr ⟨x, by simp, h⟩
  | x :: y :: xs, h => by
    rw [joinWith] at h
    rcases List.mem_append.mp h with h' | h'
    · rcases List.mem_append.mp h' with h'' | h''
      · exact Or.inr ⟨x, by simp, h''⟩
      · exact Or.inl h''
    · rcases mem_joinWith c sep (y :: xs) h' with h'' | ⟨l, hl, hcl⟩
      · exact Or.inl h''
      · exact Or.inr ⟨l, List.mem_cons_of_mem _ hl, hcl⟩

/-- Characters of an exported cell are quotes or characters of the value
(shared helper). -/
theorem mem_quoteField (c : Char) (s : String) (h : c ∈ quoteField s) :
    c = dq ∨ c ∈ s.data := by
  rw [quoteField] at h
  rcases List.mem_cons.mp h with h1 | h1
  · exact Or.inl h1
  · rcases List.mem_append.mp h1 with h2 | h2
    · rcases mem_dquote c s.data h2 with h3 | h3
      · exact Or.inl h3
      · exact Or.inr h3
    · rcases List.mem_cons.mp h2 with h3 | h3
      · exact Or.inl h3
      · simp at h3

/-- Splitting recovers a separator-free chunk (shared helper). -/
theorem splitOnChar_no_sep (sep : Char) :
    ∀ (l : List Char), sep ∉ l → splitOnChar sep l = [l]
  | [], _ => rfl
  | c :: l', hl => by
    have hc : c ≠ sep := fun h => hl (by simp [h])
    have hl' : sep ∉ l' := fun h => hl (List.mem_cons_of_mem _ h)
    rw [splitOnChar, if_neg (by simp [hc]), splitOnChar_no_sep sep l' hl']
    rfl

/-- Splitting consumes the first separator after a separator-free chunk
(shared helper). -/
theorem splitOnChar_append (sep : Char) :
    ∀ (l t : List Char), sep ∉ l →
      splitOnChar sep (l ++ sep :: t) = l :: splitOnChar sep t
  | [], t, _ => by
    show splitOnChar sep (sep :: t) = _
    rw [splitOnChar, if_pos (by simp)]
  | c :: l', t, hl => by
    have hc : c ≠ sep := fun h => hl (by simp [h])
    have hl' : sep ∉ l' := fun h => hl (List.mem_cons_of_mem _ h)
    rw [List.cons_append, splitOnChar, if_neg (by simp [hc]),
      splitOnChar_append sep l' t hl']
    rfl

/-- `mapButLast` of a pointwise-fixed function is the identity (shared
helper). -/
theorem mapButLast_id (f : List Char → List Char) :
    ∀ (ls : List (List Char)), (∀ l ∈ ls, f l = l) → mapButLast f ls = ls
  | [], _ => rfl
  | [l], _ => rfl
  | l :: l2 :: ls, h => by
    rw [mapButLast, h l (by simp),
      mapButLast_id f (l2 :: ls) fun x hx => h x (List.mem_cons_of_mem _ hx)]

/-- A line that does not end in a carriage return is not shortened: only a
carriage return directly before the separating newline is consumed (shared
helper). -/
theorem dropTrailingCR_id (l : List Char) (hl : l.getLast? ≠ some '\r') :
    dropTrailingCR l = l := by
  cases h : l.getLast? with
  | none => simp [dropTrailingCR, h]
  | some a =>
    by_cases ha : a = '\r'
    · exact absurd (ha ▸ h) hl
    · simp [dropTrailingCR, h, ha]

/-- Splitting the newline-joined lines recovers the lines, when no line
contains a newline or ends in a carriage return (shared helper). -/
theorem splitRN_joinWith (ls : List (List Char)) (hne : ls ≠ [])
    (hcl : ∀ l ∈ ls, ('\n' : Char) ∉ l ∧ l.getLast? ≠ some '\r') :
    splitRN (joinWith ['\n'] ls) = ls := by
  have hsplit : ∀ (ms : List (List Char)), ms ≠ [] →
      (∀ l ∈ ms, ('\n' : Char) ∉ l) →
      splitOnChar '\n' (joinWith ['\n'] ms) = ms := by
    intro ms
    induction ms with
    | nil => intro h; exact absurd rfl h
    | cons x xs ih =>
      intro _ hnl
      cases xs with
      | nil => exact splitOnChar_no_sep '\n' x (hnl x (by simp))
      | cons y ys =>
        have hx : ('\n' : Char) ∉ x := hnl x (by simp)
        have hjoin : joinWith ['\n'] (x :: y :: ys) =
            x ++ '\n' :: joinWith ['\n'] (y :: ys) := by
          rw [joinWith]
          simp [List.append_assoc]
        rw [hjoin, splitOnChar_append '\n' x _ hx,
          ih (by simp) fun l hl => hnl l (List.mem_cons_of_mem _ hl)]
  rw [splitRN, hsplit ls hne fun l hl => (hcl l hl).1]
  exact mapButLast_id _ ls fun l hl => dropTrailingCR_id l (hcl l hl).2

/-- Cleanness of an event, spelled out per character (shared helper). -/
theorem cleanEvent_spec (e : EventItem) (hc : cleanEvent e = true) :
    ∀ f ∈ eventFields e, ∀ c ∈ f.data, c ≠ dq ∧ c ≠ '\n' := by
  intro f hf c hcf
  have hc' : (eventFields e).all cleanField = true := hc
  have h1 : cleanField f = true := List.all_eq_true.mp hc' f hf
  have h1' : f.data.all (fun c => c != dq && c != '\n') = true := h1
  have h2 := List.all_eq_true.mp h1' c hcf
  simp only [Bool.and_eq_true, bne_iff_ne, ne_eq] at h2
  exact ⟨h2.1, h2.2⟩

/-- Every export header name reads one of the seven event fields (shared
helper). -/
theorem fieldOf_mem (e : EventItem) : ∀ h ∈ CSV_HEADER, fieldOf e h ∈ eventFields e := by
  intro h hh
  fin_cases hh
  · show e.title ∈ eventFields e
    simp [eventFields]
  · show e.day ∈ eventFields e
    simp [eventFields]
  · show e.start ∈ eventFields e
    simp [eventFields]
  · show e.«end» ∈ eventFields e
    simp [eventFields]
  · show e.category ∈ eventFields e
    simp [eventFields]
  · show e.color ∈ eventFields e
    simp [eventFields]
  · show e.notes.getD "" ∈ eventFields e
    simp [eventFields]

/-- A joined chunk list with a nonempty head is nonempty (shared helper). -/
theorem joinWith_ne_nil (sep : List Char) (x : List Char) (xs : List (List Char))
    (hx : x ≠ []) : joinWith sep (x :: xs) ≠ [] := by
  cases xs with
  | nil => simpa [joinWith] using hx
  | cons y ys =>
    rw [joinWith]
    intro h
    rcases List.append_eq_nil.mp h with ⟨h1, _⟩
    rcases List.append_eq_nil.mp h1 with ⟨h2, _⟩
    exact hx h2

/-- An exported data row is a nonempty line (shared helper). -/
theorem rowLine_ne_nil (e : EventItem) : rowLine e ≠ [] :=
  joinWith_ne_nil [','] _ _ (by simp [quoteField])

/-- An exported data row of a clean event contains no newline (shared
helper). -/
theorem rowLine_clean (e : EventItem) (hc : cleanEvent e = true) :
    ('\n' : Char) ∉ rowLine e := by
  have key : ∀ c : Char, c ∈ rowLine e →
      c = ',' ∨ c = dq ∨ ∃ f ∈ eventFields e, c ∈ f.data := by
    intro c hmem
    rcases mem_joinWith c [','] _ hmem with hsep | ⟨cell, hcell, hcmem⟩
    · rcases List.mem_cons.mp hsep with h1 | h1
      · exact Or.inl h1
      · simp at h1
    · rcases List.mem_map.mp hcell with ⟨hname, hh, rfl⟩
      rcases mem_quoteField c _ hcmem with h1 | h1
      · exact Or.inr (Or.inl h1)
      · exact Or.inr (Or.inr ⟨fieldOf e hname, fieldOf_mem e hname hh, h1⟩)
  intro hmem
  rcases key _ hmem with h | h | ⟨f, hf, hcf⟩
  · exact absurd h (by decide)
  · exact absurd h (by decide)
  · exact (cleanEvent_spec e hc f hf _ hcf).2 rfl

/-- An exported cell always ends in a double quote (shared helper). -/
theorem quoteField_getLast (s : String) : (quoteField s).getLast? = some dq := by
  show (dq :: (dquote s.data ++ [dq])).getLast? = some dq
  rw [← List.cons_append, List.getLast?_concat]

/-- A joined chunk list whose chunks all end in `a` ends in `a` (shared
helper). -/
theorem joinWith_getLast (sep : List Char) (a : Char) :
    ∀ (ls : List (List Char)), ls ≠ [] → (∀ l ∈ ls, l.getLast? = some a) →
      (joinWith sep ls).getLast? = some a
  | [], h, _ => absurd rfl h
  | [x], _, hall => by
    rw [joinWith]
    exact hall x (by simp)
  | x :: y :: xs, _, hall => by
    have htail : (joinWith sep (y :: xs)).getLast? = some a :=
      joinWith_getLast sep a (y :: xs) (by simp)
        fun l hl => hall l (List.mem_cons_of_mem _ hl)
    have hy : joinWith sep (y :: xs) ≠ [] :=
      joinWith_ne_nil sep y xs fun hnil => by
        have hcontra := hall y (by simp)
        rw [hnil] at hcontra
        cases hcontra
    rw [joinWith, List.getLast?_append_of_ne_nil _ hy, htail]

/-- An exported data row ends in a double quote, hence never in a carriage
return (shared helper). -/
theorem rowLine_getLast (e : EventItem) : (rowLine e).getLast? = some dq := by
  have h0 : rowLine e = joinWith [','] ((eventFields e).map quoteField) := rfl
  rw [h0]
  refine joinWith_getLast [','] dq _ (by simp [eventFields]) fun l hl => ?_
  rcases List.mem_map.mp hl with ⟨f, _, rfl⟩
  exact quoteField_getLast f

/-- Parsing back the exported row of a clean event recovers its seven fields,
with the supplied fresh id (shared helper). -/
theorem parseRow_rowLine (e : EventItem) (fresh : String) (hc : cleanEvent e = true) :
    parseRow hdrCols (rowLine e) fresh =
      { id := fresh, title := e.title, day := e.day, start := e.start,
        «end» := e.«end», category := e.category, color := e.color,
        notes := some (e.notes.getD "") } := by
  have hfields : ∀ f ∈ eventFields e, dq ∉ f.data := fun f hf h =>
    (cleanEvent_spec e hc f hf _ h).1 rfl
  have hrow : rowLine e = joinWith [','] (((eventFields e).map String.data).map
      fun v => dq :: (v ++ [dq])) := by
    have h0 : rowLine e = joinWith [','] ((eventFields e).map quoteField) := rfl
    rw [h0, List.map_map]
    congr 1
    refine List.map_congr_left fun f hf => ?_
    simp only [Function.comp_apply, quoteField, dquote_clean f.data (hfields f hf)]
  have htok : csvTokens (rowLine e) =
      ((eventFields e).map String.data).map fun v => dq :: (v ++ [dq]) := by
    rw [hrow]
    refine csvTokens_wrapped _ (by simp [eventFields]) fun v hv => ?_
    rcases List.mem_map.mp hv with ⟨f, hf, rfl⟩
    exact hfields f hf
  have hitems : (csvTokens (rowLine e)).map (List.filter (· != dq)) =
      (eventFields e).map String.data := by
    rw [htok, List.map_map]
    have hcong : ∀ v ∈ (eventFields e).map String.data,
        (List.filter (· != dq) ∘ fun v => dq :: (v ++ [dq])) v = id v := by
      intro v hv
      rcases List.mem_map.mp hv with ⟨f, hf, rfl⟩
      exact filter_wrap f.data (hfields f hf)
    rw [List.map_congr_left hcong, List.map_id]
  simp only [parseRow, hitems, eventFields, List.map_cons, List.map_nil]
  rfl

/-- The import columns computed from the exported header are the seven field
names (shared helper). -/
theorem cols_headerLine :
    (splitOnChar ',' headerLine).map (fun cl => trimWS (cl.filter (· != dq))) =
      hdrCols := by decide

/-- Parsing back all exported rows of clean events recovers all fields
(shared helper). -/
theorem parseRows_rowLines (supply : ℕ → String) :
    ∀ (evs : List EventItem) (k : ℕ), (∀ e ∈ evs, cleanEvent e = true) →
      (parseRows supply hdrCols k (evs.map rowLine)).map eventFields =
        evs.map eventFields
  | [], _, _ => rfl
  | e :: evs, k, hc => by
    rw [List.map_cons, parseRows, List.map_cons,
      parseRow_rowLine e (supply k) (hc e (by simp)),
      parseRows_rowLines supply evs (k + 1) fun x hx => hc x (List.mem_cons_of_mem _ hx),
      List.map_cons]
    simp [eventFields]

/-- C2 (amended): exporting the Event Store to CSV and re-importing the text
yields a collection equal to the original up to id (each imported event takes
a fresh supplied id) and up to field-level string equality — provided every
field value is free of double quotes and newlines.  (Unrestricted, the claim
fails: see the quoted-title counterexample.)  A lone carriage return inside a
field is covered: each exported cell ends in a quote, so a carriage return
never immediately precedes the newline that joins the rows and the split
leaves it in place. -/
theorem exportCSV_importCSV_roundtrip (supply : ℕ → String) (evs : List EventItem)
    (hclean : ∀ e ∈ evs, cleanEvent e = true) :
    (importCSVWeb supply (exportCSV evs)).map (fun out => out.map eventFields) =
      some (evs.map eventFields) := by
  have hlineclean : ∀ l ∈ headerLine :: evs.map rowLine,
      ('\n' : Char) ∉ l ∧ l.getLast? ≠ some '\r' := by
    intro l hl
    rcases List.mem_cons.mp hl with rfl | hl
    · exact ⟨by decide, by decide⟩
    · rcases List.mem_map.mp hl with ⟨e, he, rfl⟩
      refine ⟨rowLine_clean e (hclean e he), ?_⟩
      rw [rowLine_getLast e]
      decide
  have hlines : splitRN (exportCSV evs).data = headerLine :: evs.map rowLine := by
    show splitRN (joinWith ['\n'] (headerLine :: evs.map rowLine)) = _
    exact splitRN_joinWith _ (by simp) hlineclean
  have hfilter : (splitRN (exportCSV evs).data).filter (fun l => !l.isEmpty) =
      headerLine :: evs.map rowLine := by
    rw [hlines]
    refine List.filter_eq_self.mpr fun l hl => ?_
    rcases List.mem_cons.mp hl with rfl | hl
    · decide
    · rcases List.mem_map.mp hl with ⟨e, he, rfl⟩
      simpa using rowLine_ne_nil e
  simp only [importCSVWeb, hfilter, cols_headerLine, Option.map_some']
  exact congrArg some (parseRows_rowLines supply evs 0 hclean)

/-- C2 witness: a clean three-event store round-trips, including the event
whose title holds a lone carriage return — on a non-last row. -/
theorem exportCSV_importCSV_roundtrip_witness :
    (importCSVWeb supplyF (exportCSV [evMon9, evCR, evWed10])).map
        (fun out => out.map eventFields) =
      some ([evMon9, evCR, evWed10].map eventFields) :=
  exportCSV_importCSV_roundtrip supplyF [evMon9, evCR, evWed10] (by decide)

/-- C2 counterexample: for the store holding the single event `evQ`, whose
title contains a double quote, export followed by re-import does not
reproduce the fields: the doubled quote makes the regex scan split the title
cell in two, shifting every later field.  This refutes the round-trip claim
as stated, for every id supply (the compared fields exclude ids). -/
theorem exportImport_quote_counterexample :
    (importCSVWeb supplyF (exportCSV [evQ])).map (fun out => out.map eventFields) ≠
      some ([evQ].map eventFields) := by decide
